import Mathlib

/-!
Verification of the boundary-locator core of the wom-leagues-scraper
repository (src/last_ranked.py, with its collaborators declared in
src/main.py).

The embedding models:
* `binary_search` (src/last_ranked.py lines 33-57): the binary search over
  the hiscore pages.  The Python local `last_player` is declared without an
  initial value; we model it as an `Option Int` that starts as `none`, so a
  result of `none` corresponds to the `UnboundLocalError` raised by
  `return last_player` when no probe ever returned a page.
* `new_bounds` (lines 60-72): the bracket expansion `while True:` loop.  The
  Python loop can run forever when every probe returns data, so it is
  embedded with an explicit `fuel` argument; `none` means the loop is still
  running after `fuel` probes (in particular, for every `fuel` the result is
  `none` exactly when the Python loop never returns).
* `find_last_players` (lines 75-112): the per-metric orchestration loop with
  the checkpoint mapping (`last_ranks`).  Loading the JSON file is modelled
  by taking the initial mapping as an argument, and the final file write by
  returning the mapping that is written; `none` means an exception
  (or the non-terminating `new_bounds` loop) propagated out of the metric
  loop, in which case the write at lines 106-110 is never executed.

Modelled from the spec: the Page Fetcher `fetch_hiscore_players` and the
constant `PLAYERS_PER_PAGE` are imported from `main` in the source but are
not defined in the analyzed files.  Following the spec (sections 2 and 4.1,
rank-indexed mode), a fetch is an oracle `Int → List Int` giving, for each
index, the ordered page of entries; each entry is represented by its rank,
the only field the locator inspects besides the page length and emptiness.
`PLAYERS_PER_PAGE` is a fixed positive page size and is kept as a parameter
`psize` since the spec fixes no concrete value.
-/

/-- The amount of ranks to skip when searching for new bounds
(src/last_ranked.py line 14). -/
def RANK_SKIP : Int := 25000

/-- The absolute max rank of any metric (src/last_ranked.py line 17). -/
def MAX_RANK : Int := 2000000

/-- Python `(low + high) // 2` is floor division, i.e. `Int.fdiv`. -/
def pymid (low high : Int) : Int := Int.fdiv (low + high) 2

/-- The `while _low <= _high` loop of `binary_search`
(src/last_ranked.py lines 39-55).  `last` is the current value of the
`last_player` variable (`none` while still unassigned); the result is the
value returned at line 57, `none` standing for the `UnboundLocalError`
raised when `last_player` was never assigned.  The rate-limit sleep at
line 55 has no effect on the returned value and is accounted for by
`binary_search_events`. -/
def binary_search_loop (fetch : Int → List Int) (psize : Nat)
    (low high : Int) (last : Option Int) : Option Int :=
  if h : low ≤ high then
    let mid := pymid low high
    let board := fetch mid
    match board.getLast? with
    | some p =>
        -- the fetch didn't result in a 404: record the last player,
        -- move `_low` up, and stop at once on a short page (lines 44-51)
        if board.length < psize then some p
        else binary_search_loop fetch psize (mid + 1) high (some p)
    | none =>
        -- empty board: `_high = mid - 1` (lines 52-53)
        binary_search_loop fetch psize low (mid - 1) last
  else last
termination_by (high + 1 - low).toNat
decreasing_by
  · have h2 : low ≤ pymid low high ∧ pymid low high ≤ high := by
      unfold pymid
      rw [Int.fdiv_eq_ediv _ (by norm_num)]
      omega
    omega
  · have h2 : low ≤ pymid low high ∧ pymid low high ≤ high := by
      unfold pymid
      rw [Int.fdiv_eq_ediv _ (by norm_num)]
      omega
    omega

/-- `binary_search(session, metric, low, high)` (src/last_ranked.py
lines 33-57): runs the loop with `last_player` unassigned. -/
def binary_search (fetch : Int → List Int) (psize : Nat)
    (low high : Int) : Option Int :=
  binary_search_loop fetch psize low high none

/-- An observable action of the locator: a call of `fetch_hiscore_players`
at an index, or the rate-limit delay `await asyncio.sleep(DELAY)`. -/
inductive Event : Type where
  | fetch (i : Int) : Event
  | wait : Event
deriving DecidableEq

/-- The sequence of fetch and sleep events performed by the
`binary_search` loop, in order: each iteration fetches the midpoint and
ends with `asyncio.sleep(DELAY)` (line 55), except that the short-page
`break` at line 51 leaves the loop before the sleep. -/
def binary_search_events (fetch : Int → List Int) (psize : Nat)
    (low high : Int) : List Event :=
  if h : low ≤ high then
    let mid := pymid low high
    let board := fetch mid
    match board.getLast? with
    | some _ =>
        if board.length < psize then [Event.fetch mid]
        else Event.fetch mid :: Event.wait ::
          binary_search_events fetch psize (mid + 1) high
    | none =>
        Event.fetch mid :: Event.wait ::
          binary_search_events fetch psize low (mid - 1)
  else []
termination_by (high + 1 - low).toNat
decreasing_by
  · have h2 : low ≤ pymid low high ∧ pymid low high ≤ high := by
      unfold pymid
      rw [Int.fdiv_eq_ediv _ (by norm_num)]
      omega
    omega
  · have h2 : low ≤ pymid low high ∧ pymid low high ≤ high := by
      unfold pymid
      rw [Int.fdiv_eq_ediv _ (by norm_num)]
      omega
    omega

/-- The `while True:` loop of `new_bounds` (src/last_ranked.py
lines 65-72), with its state `(new_low, new_high)`.  Returns the Python
return value (or `none` if the loop is still running after `fuel` probes)
together with the list of indices passed to `fetch_hiscore_players`, in
order.  The loop body contains no sleep. -/
def new_bounds_go (fetch : Int → List Int) :
    Nat → Int → Int → Option (Int × Int) × List Int
  | 0, _, _ => (none, [])
  | fuel + 1, new_low, new_high =>
      let board := fetch new_high
      if board.isEmpty then (some (new_low, new_high), [new_high])
      else
        let r := new_bounds_go fetch fuel (new_low + RANK_SKIP) (new_high + RANK_SKIP)
        (r.1, new_high :: r.2)

/-- `new_bounds(session, metric, low)` (src/last_ranked.py lines 60-72):
starts from `new_high = low + RANK_SKIP`, `new_low = low`. -/
def new_bounds (fetch : Int → List Int) (low : Int) (fuel : Nat) :
    Option (Int × Int) :=
  (new_bounds_go fetch fuel low (low + RANK_SKIP)).1

/-- The indices fetched by `new_bounds`, in order. -/
def new_bounds_probes (fetch : Int → List Int) (low : Int) (fuel : Nat) :
    List Int :=
  (new_bounds_go fetch fuel low (low + RANK_SKIP)).2

/-- The event trace of `new_bounds`: it issues its fetches back to back,
with no sleep anywhere in the loop body (src/last_ranked.py lines 65-72). -/
def new_bounds_events (fetch : Int → List Int) (low : Int) (fuel : Nat) :
    List Event :=
  (new_bounds_probes fetch low fuel).map Event.fetch

/-- `true` iff the list contains two fetch events with nothing (in
particular no rate-limit wait) between them. -/
def hasAdjacentFetches : List Event → Bool
  | Event.fetch _ :: Event.fetch _ :: _ => true
  | _ :: rest => hasAdjacentFetches rest
  | [] => false

/-- The consecutive ranks `start, start + 1, ..., start + len - 1`. -/
def intRange (start : Int) : Nat → List Int
  | 0 => []
  | len + 1 => start :: intRange (start + 1) len

/-- A monotone synthetic rank-indexed dataset in the sense of spec
section 4.1 / section 8: the fetch at index `i` is non-empty exactly for
`0 ≤ i ≤ N` and returns up to `psize` entries whose ranks start at `i`,
truncated at the final rank `N`. -/
def syntheticPage (psize : Nat) (N : Int) (i : Int) : List Int :=
  if 0 ≤ i ∧ i ≤ N then intRange i (min psize (N + 1 - i).toNat) else []

/-- The checkpoint mapping `last_ranks`: metric name to last discovered
rank, as stored in last_ranks.json. -/
abbrev LastRanks := List (String × Int)

/-- `last_ranks[metric.name] = rank` on a Python dict: replace the value
of an existing key in place, otherwise append the new entry. -/
def updateRanks (k : String) (v : Int) : LastRanks → LastRanks
  | [] => [(k, v)]
  | (k', v') :: rest =>
      if k' = k then (k, v) :: rest else (k', v') :: updateRanks k v rest

/-- The body of the `for metric in NOT_ALL_METRICS:` loop of
`find_last_players` (src/last_ranked.py lines 85-104) for one metric:
dispatch on the prior checkpoint, search, and update `last_ranks` —
except on the `last_rank == MAX_RANK` path, whose `continue` at line 93
skips the update at line 102.  `none` means the search crashed
(`UnboundLocalError`) or `new_bounds` never returned, so the exception
propagates out of the loop. -/
def find_last_players_step (fetch : String → Int → List Int) (psize : Nat)
    (fuel : Nat) (last_ranks : LastRanks) (metric : String) :
    Option (Int × LastRanks) :=
  match List.lookup metric last_ranks with
  | some last_rank =>
      if last_rank = MAX_RANK then
        (binary_search (fetch metric) psize last_rank MAX_RANK).map
          (fun p => (p, last_ranks))
      else
        match new_bounds (fetch metric) last_rank fuel with
        | none => none
        | some (low, high) =>
            (binary_search (fetch metric) psize low high).map
              (fun p => (p, updateRanks metric p last_ranks))
  | none =>
      (binary_search (fetch metric) psize 0 MAX_RANK).map
        (fun p => (p, updateRanks metric p last_ranks))

/-- The metric loop of `find_last_players`: processes the metrics in
order, threading `last_ranks`; stops with `none` as soon as one metric's
step raises, mirroring the absence of any per-metric exception handler. -/
def find_last_players_go (fetch : String → Int → List Int) (psize : Nat)
    (fuel : Nat) : List String → LastRanks → Option (List Int × LastRanks)
  | [], last_ranks => some ([], last_ranks)
  | m :: rest, last_ranks =>
      match find_last_players_step fetch psize fuel last_ranks m with
      | none => none
      | some (p, last_ranks') =>
          (find_last_players_go fetch psize fuel rest last_ranks').map
            (fun r => (p :: r.1, r.2))

/-- `find_last_players` (src/last_ranked.py lines 75-112).  The initial
mapping is the one loaded from last_ranks.json at lines 76-80 (the empty
list when the file is missing); on success the result carries the ranks
of the appended `last_players` in metric order and the final `last_ranks`
mapping, which is exactly what lines 106-110 serialize to the file.  A
`none` result means an exception propagated before the write, so the file
is left untouched. -/
def find_last_players (fetch : String → Int → List Int) (psize : Nat)
    (fuel : Nat) (metrics : List String) (last_ranks : LastRanks) :
    Option (List Int × LastRanks) :=
  find_last_players_go fetch psize fuel metrics last_ranks

/-- The sequence of observable checkpoint-file contents during the write
at src/last_ranked.py lines 106-110: the file initially holds the old
mapping; `open(LAST_RANKS_FILE, "w")` truncates it, after which its
contents are not a complete serialized mapping (`none`, standing for the
truncated or partially written file); only when `f.write(data)` completes
does it hold the new mapping. -/
def save_observable_states (old new : LastRanks) : List (Option LastRanks) :=
  [some old, none, some new]

/-! Helper lemmas. -/

theorem pymid_le {low high : Int} (h : low ≤ high) :
    low ≤ pymid low high ∧ pymid low high ≤ high := by
  unfold pymid
  rw [Int.fdiv_eq_ediv _ (by norm_num)]
  omega

theorem intRange_length (start : Int) (len : Nat) :
    (intRange start len).length = len := by
  induction len generalizing start with
  | zero => rfl
  | succ n ih => simp [intRange, ih]

theorem intRange_ne_nil (start : Int) {len : Nat} (h : 0 < len) :
    intRange start len ≠ [] := by
  cases len with
  | zero => omega
  | succ n => simp [intRange]

theorem intRange_getLast? (start : Int) {len : Nat} (h : 0 < len) :
    (intRange start len).getLast? = some (start + len - 1) := by
  induction len generalizing start with
  | zero => omega
  | succ n ih =>
    cases n with
    | zero => simp [intRange]
    | succ m =>
      rw [intRange, intRange]
      rw [List.getLast?_cons_cons]
      rw [← intRange]
      rw [ih (start + 1) (by omega)]
      congr 1
      push_cast
      ring

theorem syntheticPage_eq_nil {psize : Nat} {N i : Int}
    (h : ¬(0 ≤ i ∧ i ≤ N)) : syntheticPage psize N i = [] := by
  simp [syntheticPage, h]

theorem syntheticPage_ne_nil {psize : Nat} {N i : Int} (hps : 1 ≤ psize)
    (h : 0 ≤ i ∧ i ≤ N) : syntheticPage psize N i ≠ [] := by
  rw [syntheticPage, if_pos h]
  exact intRange_ne_nil i (by omega)

theorem syntheticPage_length {psize : Nat} {N i : Int}
    (h : 0 ≤ i ∧ i ≤ N) :
    (syntheticPage psize N i).length = min psize (N + 1 - i).toNat := by
  rw [syntheticPage, if_pos h, intRange_length]

theorem syntheticPage_getLast {psize : Nat} {N i : Int} (hps : 1 ≤ psize)
    (h : 0 ≤ i ∧ i ≤ N) :
    (syntheticPage psize N i).getLast? = some (min (i + psize - 1) N) := by
  rw [syntheticPage, if_pos h, intRange_getLast? i (by omega)]
  congr 1
  omega

theorem binary_search_loop_all_empty (fetch : Int → List Int) (psize : Nat)
    (low high : Int) (last : Option Int)
    (h : ∀ i, low ≤ i → i ≤ high → fetch i = []) :
    binary_search_loop fetch psize low high last = last := by
  rw [binary_search_loop]
  split
  · rename_i hlh
    have hm := pymid_le hlh
    dsimp only
    rw [h _ hm.1 hm.2]
    simp only [List.getLast?_nil]
    exact binary_search_loop_all_empty fetch psize low (pymid low high - 1) last
      (fun i h1 h2 => h i h1 (by omega))
  · rfl
termination_by (high + 1 - low).toNat
decreasing_by
  omega

theorem binary_search_loop_synthetic (psize : Nat) (N low high : Int)
    (last : Option Int) (hps : 1 ≤ psize) (h0 : 0 ≤ low) (hlN : low ≤ N)
    (hNh : N ≤ high) :
    binary_search_loop (syntheticPage psize N) psize low high last = some N := by
  have hlh : low ≤ high := le_trans hlN hNh
  have hm := pymid_le hlh
  rw [binary_search_loop, dif_pos hlh]
  dsimp only
  by_cases hcase : pymid low high ≤ N
  · have hin : 0 ≤ pymid low high ∧ pymid low high ≤ N := ⟨by omega, hcase⟩
    rw [syntheticPage_getLast hps hin]
    dsimp only
    rw [syntheticPage_length hin]
    by_cases hshort : min psize (N + 1 - pymid low high).toNat < psize
    · rw [if_pos hshort]
      congr 1
      omega
    · rw [if_neg hshort]
      by_cases hlast : pymid low high + 1 ≤ N
      · exact binary_search_loop_synthetic psize N (pymid low high + 1) high _
          hps (by omega) hlast hNh
      · have hminN : min (pymid low high + psize - 1) N = N := by omega
        rw [hminN]
        exact binary_search_loop_all_empty _ psize (pymid low high + 1) high
          (some N) (fun i h1 h2 => syntheticPage_eq_nil (by omega))
  · have hnil : syntheticPage psize N (pymid low high) = [] :=
      syntheticPage_eq_nil (by omega)
    rw [hnil]
    simp only [List.getLast?_nil]
    exact binary_search_loop_synthetic psize N low (pymid low high - 1) last
      hps h0 hlN (by omega)
termination_by (high + 1 - low).toNat
decreasing_by
  · omega
  · omega

theorem binary_search_loop_short_page (fetch : Int → List Int) (psize : Nat)
    (low high : Int) (last : Option Int) (hlh : low ≤ high)
    (hne : fetch (pymid low high) ≠ [])
    (hshort : (fetch (pymid low high)).length < psize) :
    binary_search_loop fetch psize low high last =
      (fetch (pymid low high)).getLast? := by
  rw [binary_search_loop, dif_pos hlh]
  dsimp only
  cases hgl : (fetch (pymid low high)).getLast? with
  | none => exact absurd (List.getLast?_eq_none_iff.mp hgl) hne
  | some p =>
    dsimp only
    rw [if_pos hshort]

theorem binary_search_events_short_page (fetch : Int → List Int) (psize : Nat)
    (low high : Int) (hlh : low ≤ high)
    (hne : fetch (pymid low high) ≠ [])
    (hshort : (fetch (pymid low high)).length < psize) :
    binary_search_events fetch psize low high = [Event.fetch (pymid low high)] := by
  rw [binary_search_events, dif_pos hlh]
  dsimp only
  cases hgl : (fetch (pymid low high)).getLast? with
  | none => exact absurd (List.getLast?_eq_none_iff.mp hgl) hne
  | some p =>
    dsimp only
    rw [if_pos hshort]

theorem hasAdjacentFetches_fetch_wait (i : Int) (l : List Event) :
    hasAdjacentFetches (Event.fetch i :: Event.wait :: l) = hasAdjacentFetches l :=
  rfl

theorem hasAdjacentFetches_single (i : Int) :
    hasAdjacentFetches [Event.fetch i] = false :=
  rfl

theorem binary_search_events_no_adjacent (fetch : Int → List Int)
    (psize : Nat) (low high : Int) :
    hasAdjacentFetches (binary_search_events fetch psize low high) = false := by
  rw [binary_search_events]
  split
  · rename_i hlh
    have hm := pymid_le hlh
    dsimp only
    cases hgl : (fetch (pymid low high)).getLast? with
    | none =>
      rw [hasAdjacentFetches_fetch_wait]
      exact binary_search_events_no_adjacent fetch psize low (pymid low high - 1)
    | some p =>
      dsimp only
      by_cases hshort : (fetch (pymid low high)).length < psize
      · rw [if_pos hshort, hasAdjacentFetches_single]
      · rw [if_neg hshort, hasAdjacentFetches_fetch_wait]
        exact binary_search_events_no_adjacent fetch psize (pymid low high + 1) high
  · rfl
termination_by (high + 1 - low).toNat
decreasing_by
  · omega
  · omega

theorem new_bounds_go_synthetic (psize : Nat) {N : Int} (hps : 1 ≤ psize) :
    ∀ (fuel : Nat) (nl : Int), 0 ≤ nl → nl ≤ N →
    N < nl + RANK_SKIP * fuel →
    ∃ L H, (new_bounds_go (syntheticPage psize N) fuel nl (nl + RANK_SKIP)).1
        = some (L, H) ∧ 0 ≤ L ∧ L ≤ N ∧ N < H := by
  intro fuel
  induction fuel with
  | zero =>
    intro nl h0 hN hfuel
    exfalso
    have hRS : RANK_SKIP = (25000 : Int) := rfl
    simp only [Nat.cast_zero, mul_zero] at hfuel
    omega
  | succ n ih =>
    intro nl h0 hN hfuel
    have hRS : RANK_SKIP = (25000 : Int) := rfl
    rw [new_bounds_go]
    by_cases hend : nl + RANK_SKIP ≤ N
    · have hne : syntheticPage psize N (nl + RANK_SKIP) ≠ [] :=
        syntheticPage_ne_nil hps ⟨by omega, hend⟩
      dsimp only
      rw [if_neg (by simp [List.isEmpty_eq_false, hne])]
      dsimp only
      obtain ⟨L, H, hsome, hL0, hLN, hNH⟩ :=
        ih (nl + RANK_SKIP) (by omega) hend
          (by simp only [hRS] at hfuel ⊢; push_cast at hfuel ⊢; omega)
      exact ⟨L, H, hsome, hL0, hLN, hNH⟩
    · have hnil : syntheticPage psize N (nl + RANK_SKIP) = [] :=
        syntheticPage_eq_nil (by omega)
      dsimp only
      rw [hnil]
      simp only [List.isEmpty_nil, if_true]
      exact ⟨nl, nl + RANK_SKIP, rfl, h0, hN, by omega⟩

theorem new_bounds_synthetic (psize : Nat) {N low : Int} (hps : 1 ≤ psize)
    (h0 : 0 ≤ low) (hN : low ≤ N) :
    ∃ L H, new_bounds (syntheticPage psize N) low (N + 1 - low).toNat
        = some (L, H) ∧ 0 ≤ L ∧ L ≤ N ∧ N < H := by
  have hRS : RANK_SKIP = (25000 : Int) := rfl
  refine new_bounds_go_synthetic psize hps _ low h0 hN ?_
  simp only [hRS]
  omega

theorem new_bounds_go_some {fetch : Int → List Int} {p : Int} :
    ∀ (fuel : Nat) (nl : Int), p ≤ nl → (nl = p ∨ fetch nl ≠ []) →
    ∀ {L H : Int},
    (new_bounds_go fetch fuel nl (nl + RANK_SKIP)).1 = some (L, H) →
    p ≤ L ∧ H = L + RANK_SKIP ∧ fetch H = [] ∧ (L = p ∨ fetch L ≠ []) := by
  intro fuel
  induction fuel with
  | zero =>
    intro nl hp hgood L H hsome
    simp [new_bounds_go] at hsome
  | succ n ih =>
    intro nl hp hgood L H hsome
    have hRS : RANK_SKIP = (25000 : Int) := rfl
    rw [new_bounds_go] at hsome
    dsimp only at hsome
    by_cases hemp : (fetch (nl + RANK_SKIP)).isEmpty = true
    · rw [if_pos hemp] at hsome
      simp only [Option.some.injEq, Prod.mk.injEq] at hsome
      obtain ⟨hL, hH⟩ := hsome
      subst hL hH
      exact ⟨hp, rfl, List.isEmpty_iff.mp hemp, hgood⟩
    · rw [if_neg hemp] at hsome
      exact ih (nl + RANK_SKIP) (by omega)
        (Or.inr (List.isEmpty_eq_false.mp (by simpa using hemp))) hsome

theorem new_bounds_some {fetch : Int → List Int} {p L H : Int} {fuel : Nat}
    (hsome : new_bounds fetch p fuel = some (L, H)) :
    p ≤ L ∧ H = L + RANK_SKIP ∧ fetch H = [] ∧ (L = p ∨ fetch L ≠ []) :=
  new_bounds_go_some fuel p le_rfl (Or.inl rfl) hsome

theorem lookup_updateRanks_self (k : String) (v : Int) (m : LastRanks) :
    List.lookup k (updateRanks k v m) = some v := by
  induction m with
  | nil => simp [updateRanks, List.lookup]
  | cons hd tl ih =>
    obtain ⟨k', v'⟩ := hd
    by_cases hk : k' = k
    · subst hk
      simp [updateRanks, List.lookup]
    · have h1 : (k == k') = false := by simp [Ne.symm hk]
      simp [updateRanks, hk, List.lookup, h1, ih]

theorem lookup_updateRanks_ne (k' k : String) (v : Int) (m : LastRanks)
    (hne : k' ≠ k) :
    List.lookup k' (updateRanks k v m) = List.lookup k' m := by
  have h1 : (k' == k) = false := by simp [hne]
  induction m with
  | nil => simp [updateRanks, List.lookup, h1]
  | cons hd tl ih =>
    obtain ⟨k0, v0⟩ := hd
    by_cases hk : k0 = k
    · subst hk
      simp [updateRanks, List.lookup, h1]
    · cases hbe : (k' == k0) with
      | true => simp [updateRanks, hk, List.lookup, hbe]
      | false => simp [updateRanks, hk, List.lookup, hbe, ih]

theorem new_bounds_go_all_nonempty {fetch : Int → List Int}
    (hfull : ∀ i, fetch i ≠ []) :
    ∀ (fuel : Nat) (nl nh : Int), (new_bounds_go fetch fuel nl nh).1 = none := by
  intro fuel
  induction fuel with
  | zero => intro nl nh; rfl
  | succ n ih =>
    intro nl nh
    rw [new_bounds_go]
    dsimp only
    rw [if_neg (by simp [List.isEmpty_eq_false, hfull nh])]
    exact ih (nl + RANK_SKIP) (nh + RANK_SKIP)

theorem find_last_players_step_some {fetch : String → Int → List Int}
    {psize fuel : Nat} {lr : LastRanks} {m : String} {r : Int} {lr' : LastRanks}
    (h : find_last_players_step fetch psize fuel lr m = some (r, lr')) :
    lr' = updateRanks m r lr ∨ (lr' = lr ∧ List.lookup m lr = some MAX_RANK) := by
  unfold find_last_players_step at h
  cases hlk : List.lookup m lr with
  | none =>
    rw [hlk] at h
    dsimp only at h
    cases hbs : binary_search (fetch m) psize 0 MAX_RANK with
    | none => rw [hbs] at h; simp at h
    | some p =>
      rw [hbs] at h
      simp only [Option.map_some', Option.some.injEq, Prod.mk.injEq] at h
      obtain ⟨hr, hlr⟩ := h
      subst hr
      exact Or.inl hlr.symm
  | some q =>
    rw [hlk] at h
    dsimp only at h
    by_cases hq : q = MAX_RANK
    · rw [if_pos hq] at h
      cases hbs : binary_search (fetch m) psize q MAX_RANK with
      | none => rw [hbs] at h; simp at h
      | some p =>
        rw [hbs] at h
        simp only [Option.map_some', Option.some.injEq, Prod.mk.injEq] at h
        exact Or.inr ⟨h.2.symm, by rw [hq]⟩
    · rw [if_neg hq] at h
      cases hnb : new_bounds (fetch m) q fuel with
      | none => rw [hnb] at h; simp at h
      | some LH =>
        obtain ⟨L, H⟩ := LH
        rw [hnb] at h
        dsimp only at h
        cases hbs : binary_search (fetch m) psize L H with
        | none => rw [hbs] at h; simp at h
        | some p =>
          rw [hbs] at h
          simp only [Option.map_some', Option.some.injEq, Prod.mk.injEq] at h
          obtain ⟨hr, hlr⟩ := h
          subst hr
          exact Or.inl hlr.symm

theorem find_last_players_step_frame {fetch : String → Int → List Int}
    {psize fuel : Nat} {lr : LastRanks} {m : String} {r : Int} {lr' : LastRanks}
    {name : String} (hne : name ≠ m)
    (h : find_last_players_step fetch psize fuel lr m = some (r, lr')) :
    List.lookup name lr' = List.lookup name lr := by
  rcases find_last_players_step_some h with hup | ⟨hsame, _⟩
  · rw [hup]
    exact lookup_updateRanks_ne name m r lr hne
  · rw [hsame]

theorem find_last_players_go_frame (fetch : String → Int → List Int)
    (psize fuel : Nat) :
    ∀ (metrics : List String) (lr : LastRanks) (res : List Int)
    (lr' : LastRanks) (name : String),
    find_last_players_go fetch psize fuel metrics lr = some (res, lr') →
    name ∉ metrics → List.lookup name lr' = List.lookup name lr := by
  intro metrics
  induction metrics with
  | nil =>
    intro lr res lr' name h hn
    rw [find_last_players_go] at h
    simp only [Option.some.injEq, Prod.mk.injEq] at h
    rw [← h.2]
  | cons m rest ih =>
    intro lr res lr' name h hn
    rw [find_last_players_go] at h
    cases hstep : find_last_players_step fetch psize fuel lr m with
    | none => rw [hstep] at h; simp at h
    | some plr =>
      obtain ⟨p, lr1⟩ := plr
      rw [hstep] at h
      dsimp only at h
      cases hgo : find_last_players_go fetch psize fuel rest lr1 with
      | none => rw [hgo] at h; simp at h
      | some rl =>
        obtain ⟨res1, lrf⟩ := rl
        rw [hgo] at h
        simp only [Option.map_some', Option.some.injEq, Prod.mk.injEq] at h
        have hname_m : name ≠ m := fun he => hn (he ▸ List.mem_cons_self m rest)
        have hname_rest : name ∉ rest := fun he => hn (List.mem_cons_of_mem m he)
        calc List.lookup name lr' = List.lookup name lrf := by rw [← h.2]
          _ = List.lookup name lr1 := ih lr1 res1 lrf name hgo hname_rest
          _ = List.lookup name lr := find_last_players_step_frame hname_m hstep

/-! Claims. -/

/-- C1 (amended): on a monotone synthetic dataset with boundary `N ≥ 1`,
the locate pipeline returns exactly `N` provided the bracket reaches the
boundary: `binary_search` over the default bracket `[0, MAX_RANK]`
returns `N` whenever `1 ≤ N ≤ MAX_RANK`, and for a prior checkpoint
`0 ≤ p ≤ N` the bracket produced by `new_bounds` makes `binary_search`
return exactly `N`.  The original quantification over every prior
checkpoint fails, see `C1_counterexample`. -/
theorem C1_locate_returns_boundary (psize : Nat) (N p : Int)
    (hps : 1 ≤ psize) :
    (1 ≤ N → N ≤ MAX_RANK →
      binary_search (syntheticPage psize N) psize 0 MAX_RANK = some N) ∧
    (0 ≤ p → p ≤ N →
      ∃ L H, new_bounds (syntheticPage psize N) p (N + 1 - p).toNat
          = some (L, H) ∧
        binary_search (syntheticPage psize N) psize L H = some N) := by
  constructor
  · intro h1 h2
    exact binary_search_loop_synthetic psize N 0 MAX_RANK none hps le_rfl
      (by omega) h2
  · intro h0 hpN
    obtain ⟨L, H, hnb, hL0, hLN, hNH⟩ := new_bounds_synthetic psize hps h0 hpN
    exact ⟨L, H, hnb,
      binary_search_loop_synthetic psize N L H none hps hL0 hLN (by omega)⟩

/-- C1 counterexample: boundary `N = 1`, prior checkpoint `p = 2` (above
the boundary).  `new_bounds` returns the bracket `(2, 25002)`, every probe
in it is empty, and `binary_search` yields `none` — the
`UnboundLocalError` crash — rather than the boundary `1`. -/
theorem C1_counterexample :
    new_bounds (syntheticPage 25 1) 2 1 = some (2, 25002) ∧
    binary_search (syntheticPage 25 1) 25 2 25002 = none := by
  constructor
  · decide
  · exact binary_search_loop_all_empty _ 25 2 25002 none
      (fun i h1 h2 => syntheticPage_eq_nil (by omega))

/-- C1 witness: the amended statement at `psize = 25`, `N = 10`, `p = 3`. -/
theorem C1_locate_returns_boundary_witness :
    binary_search (syntheticPage 25 10) 25 0 MAX_RANK = some 10 ∧
    (∃ L H, new_bounds (syntheticPage 25 10) 3 8 = some (L, H) ∧
      binary_search (syntheticPage 25 10) 25 L H = some 10) := by
  have h := C1_locate_returns_boundary 25 10 3 (by norm_num)
  exact ⟨h.1 (by norm_num) (by norm_num [MAX_RANK]),
    h.2 (by norm_num) (by norm_num)⟩

/-- C2: on an empty leaderboard (every fetch returns no rows) no probe
ever assigns `last_player`, and `binary_search` returns the unassigned
variable: the model yields `none` — the `UnboundLocalError` crash — both
over the default bracket `[0, MAX_RANK]` and over an empty bracket
`low > high`, instead of the defined no-crash result the claim requires. -/
theorem C2_crash_on_empty_dataset :
    binary_search (fun _ => []) 25 0 MAX_RANK = none ∧
    binary_search (fun _ => []) 25 5 2 = none := by
  constructor
  · exact binary_search_loop_all_empty _ 25 0 MAX_RANK none (fun i _ _ => rfl)
  · exact binary_search_loop_all_empty _ 25 5 2 none (fun i _ _ => rfl)

/-- C3 counterexample: from prior boundary 1,999,999 on a dataset whose
boundary is exactly the ceiling, `new_bounds` fetches index 2,024,999 —
strictly above `MAX_RANK` — and returns a bracket normally: no failure of
any kind is signalled for probing beyond the ceiling. -/
theorem C3_counterexample :
    new_bounds (syntheticPage 25 MAX_RANK) 1999999 1
      = some (1999999, 2024999) ∧
    new_bounds_probes (syntheticPage 25 MAX_RANK) 1999999 1 = [2024999] ∧
    MAX_RANK < 2024999 := by
  refine ⟨by decide, by decide, by norm_num [MAX_RANK]⟩

/-- C3 (amended): `new_bounds` enforces no ceiling at all: when every
probe returns data the loop never returns — for every amount of fuel the
model yields `none` — and no per-metric failure is ever signalled. -/
theorem C3_expansion_never_fails (fetch : Int → List Int)
    (hfull : ∀ i, fetch i ≠ []) (fuel : Nat) (low : Int) :
    new_bounds fetch low fuel = none :=
  new_bounds_go_all_nonempty hfull fuel low (low + RANK_SKIP)

/-- C3 witness: a fetch that always returns one row never lets
`new_bounds` return. -/
theorem C3_expansion_never_fails_witness :
    new_bounds (fun _ => [0]) 7 3 = none :=
  C3_expansion_never_fails (fun _ => [0]) (fun i => by simp) 3 7

/-- C4 counterexample: two metrics, the first with an empty dataset (its
search crashes), the second healthy: the run yields `none` — the second
metric's result is not produced and the checkpoint file is not written,
contradicting the claimed per-metric isolation. -/
theorem C4_counterexample :
    find_last_players
      (fun n i => if n = "a" then [] else syntheticPage 25 10 i)
      25 1 ["a", "b"] [] = none := by
  have hbs : binary_search
      ((fun n i => if n = "a" then [] else syntheticPage 25 10 i) "a")
      25 0 MAX_RANK = none :=
    binary_search_loop_all_empty _ 25 0 MAX_RANK none (fun i _ _ => by simp)
  have hstep : find_last_players_step
      (fun n i => if n = "a" then [] else syntheticPage 25 10 i)
      25 1 [] "a" = none := by
    unfold find_last_players_step
    rw [show List.lookup "a" ([] : LastRanks) = none from rfl]
    dsimp only
    rw [hbs]
    rfl
  unfold find_last_players
  rw [find_last_players_go, hstep]

/-- C4 (amended): there is no per-metric isolation: as soon as one
metric's step fails, the whole run returns `none` — the remaining metrics
are not searched, no result list is produced, and the checkpoint file is
never written. -/
theorem C4_failure_aborts_run (fetch : String → Int → List Int)
    (psize fuel : Nat) (lr : LastRanks) (m : String) (rest : List String)
    (h : find_last_players_step fetch psize fuel lr m = none) :
    find_last_players fetch psize fuel (m :: rest) lr = none := by
  unfold find_last_players
  rw [find_last_players_go, h]

/-- C4 witness: a run over metrics `a`, `b` with a fetch that never
returns data aborts as a whole. -/
theorem C4_failure_aborts_run_witness :
    find_last_players (fun _ _ => []) 25 1 ["a", "b"] [] = none := by
  apply C4_failure_aborts_run
  have hbs : binary_search ((fun (_ : String) (_ : Int) => ([] : List Int)) "a")
      25 0 MAX_RANK = none :=
    binary_search_loop_all_empty _ 25 0 MAX_RANK none (fun i _ _ => rfl)
  unfold find_last_players_step
  rw [show List.lookup "a" ([] : LastRanks) = none from rfl]
  dsimp only
  rw [hbs]
  rfl

/-- C5 counterexample: on a dataset where the first two expansion probes
return data, `new_bounds` issues two consecutive fetches with no
rate-limit wait between them. -/
theorem C5_counterexample :
    hasAdjacentFetches (new_bounds_events (syntheticPage 25 100000) 0 2)
      = true := by
  decide

/-- C5 (amended): within a single `binary_search` call the rate-limit
delay does separate successive fetches — the event trace never contains
two adjacent fetch events, because `asyncio.sleep(DELAY)` ends every
iteration that continues (the short-page `break` only ends the whole
search).  The fetches issued by `new_bounds` are not delay-separated,
see `C5_counterexample`. -/
theorem C5_delay_between_fetches (fetch : Int → List Int) (psize : Nat)
    (low high : Int) :
    hasAdjacentFetches (binary_search_events fetch psize low high) = false :=
  binary_search_events_no_adjacent fetch psize low high

/-- C6 counterexample: prior boundary equal to the ceiling, dataset grown
to `MAX_RANK + 5`.  The degenerate single-point search succeeds and
returns boundary `MAX_RANK + 5`, but the `continue` at line 93 skips the
update at line 102: the in-memory mapping still sends the metric to
`MAX_RANK`, not to the newly discovered boundary. -/
theorem C6_counterexample :
    find_last_players_step (fun _ => syntheticPage 25 (MAX_RANK + 5)) 25 1
      [("m", MAX_RANK)] "m" = some (MAX_RANK + 5, [("m", MAX_RANK)]) ∧
    List.lookup "m" [("m", MAX_RANK)] = some MAX_RANK := by
  have hmid : pymid MAX_RANK MAX_RANK = MAX_RANK := by decide
  have hin : (0 : Int) ≤ MAX_RANK ∧ MAX_RANK ≤ MAX_RANK + 5 := by
    norm_num [MAX_RANK]
  have hbs : binary_search (syntheticPage 25 (MAX_RANK + 5)) 25 MAX_RANK
      MAX_RANK = some (MAX_RANK + 5) := by
    have h := binary_search_loop_short_page
      (syntheticPage 25 (MAX_RANK + 5)) 25 MAX_RANK MAX_RANK none le_rfl
      (by rw [hmid]; exact syntheticPage_ne_nil (by norm_num) hin)
      (by rw [hmid, syntheticPage_length hin]; norm_num [MAX_RANK])
    rw [hmid] at h
    rw [syntheticPage_getLast (by norm_num) hin] at h
    unfold binary_search
    rw [h]
    congr 1
  constructor
  · unfold find_last_players_step
    rw [show List.lookup "m" [("m", MAX_RANK)] = some MAX_RANK by
      simp [List.lookup]]
    dsimp only
    rw [if_pos rfl, hbs]
    rfl
  · simp [List.lookup]

/-- C6 (amended): for every metric whose prior checkpoint differs from the
ceiling (including a missing checkpoint), a successful step records the
result and updates the in-memory mapping for that metric to the newly
discovered boundary; the prior-boundary-equals-ceiling path records the
result but leaves the mapping unchanged, see `C6_counterexample`. -/
theorem C6_checkpoint_updated (fetch : String → Int → List Int)
    (psize fuel : Nat) (lr : LastRanks) (m : String) (r : Int)
    (lr' : LastRanks) (hnc : List.lookup m lr ≠ some MAX_RANK)
    (h : find_last_players_step fetch psize fuel lr m = some (r, lr')) :
    List.lookup m lr' = some r := by
  rcases find_last_players_step_some h with hup | ⟨_, hmax⟩
  · rw [hup]
    exact lookup_updateRanks_self m r lr
  · exact absurd hmax hnc

/-- C6 witness: a metric with no prior checkpoint whose search finds
boundary 10 ends with the mapping sending it to 10. -/
theorem C6_checkpoint_updated_witness :
    List.lookup "m" [("m", (10 : Int))] = some 10 := by
  have hbs : binary_search (syntheticPage 25 10) 25 0 MAX_RANK = some 10 :=
    binary_search_loop_synthetic 25 10 0 MAX_RANK none (by norm_num) le_rfl
      (by norm_num) (by norm_num [MAX_RANK])
  have hstep : find_last_players_step (fun _ => syntheticPage 25 10) 25 1 []
      "m" = some (10, [("m", 10)]) := by
    unfold find_last_players_step
    rw [show List.lookup "m" ([] : LastRanks) = none from rfl]
    dsimp only
    rw [hbs]
    rfl
  exact C6_checkpoint_updated (fun _ => syntheticPage 25 10) 25 1 [] "m" 10
    [("m", 10)] (by simp [List.lookup]) hstep

/-- C7: on an unchanged-or-grown dataset (boundary `N` at least the prior
checkpoint `p`), a metric whose step succeeds ends with a checkpoint entry
at least `p`: the ceiling path leaves the entry at `p = MAX_RANK`, and the
expansion path rewrites it to the discovered boundary `N ≥ p`, because the
bracket starts at or above `p`. -/
theorem C7_checkpoint_monotone (psize fuel : Nat) (N p : Int)
    (lr : LastRanks) (m : String) (r : Int) (lr' : LastRanks)
    (hps : 1 ≤ psize) (h0 : 0 ≤ p) (hpN : p ≤ N)
    (hlk : List.lookup m lr = some p)
    (h : find_last_players_step (fun _ => syntheticPage psize N) psize fuel
      lr m = some (r, lr')) :
    ∃ q, List.lookup m lr' = some q ∧ p ≤ q := by
  unfold find_last_players_step at h
  rw [hlk] at h
  dsimp only at h
  by_cases hpM : p = MAX_RANK
  · rw [if_pos hpM] at h
    cases hbs : binary_search (syntheticPage psize N) psize p MAX_RANK with
    | none => rw [hbs] at h; simp at h
    | some b =>
      rw [hbs] at h
      simp only [Option.map_some', Option.some.injEq, Prod.mk.injEq] at h
      refine ⟨p, ?_, le_rfl⟩
      rw [← h.2]
      exact hlk
  · rw [if_neg hpM] at h
    cases hnb : new_bounds (syntheticPage psize N) p fuel with
    | none => rw [hnb] at h; simp at h
    | some LH =>
      obtain ⟨L, H⟩ := LH
      rw [hnb] at h
      dsimp only at h
      obtain ⟨hpL, hH, hHnil, hgood⟩ := new_bounds_some hnb
      have hRS : RANK_SKIP = (25000 : Int) := rfl
      have hL0 : 0 ≤ L := by omega
      have hLN : L ≤ N := by
        rcases hgood with he | hne
        · omega
        · by_contra hgt
          exact hne (syntheticPage_eq_nil (by omega))
      have hNH : N ≤ H := by
        have hout : ¬(0 ≤ H ∧ H ≤ N) := by
          intro hc
          exact absurd hHnil (syntheticPage_ne_nil hps hc)
        omega
      have hbs : binary_search (syntheticPage psize N) psize L H = some N :=
        binary_search_loop_synthetic psize N L H none hps hL0 hLN hNH
      rw [hbs] at h
      simp only [Option.map_some', Option.some.injEq, Prod.mk.injEq] at h
      obtain ⟨hr, hlr⟩ := h
      refine ⟨N, ?_, hpN⟩
      rw [← hlr]
      exact lookup_updateRanks_self m N lr

/-- C7 witness: prior checkpoint at the ceiling on a dataset whose
boundary is the ceiling: the entry stays at `MAX_RANK`, which is not below
the prior value. -/
theorem C7_checkpoint_monotone_witness :
    ∃ q, List.lookup "m" [("m", MAX_RANK)] = some q ∧ MAX_RANK ≤ q := by
  have hbs : binary_search (syntheticPage 25 MAX_RANK) 25 MAX_RANK MAX_RANK
      = some MAX_RANK :=
    binary_search_loop_synthetic 25 MAX_RANK MAX_RANK MAX_RANK none
      (by norm_num) (by norm_num [MAX_RANK]) le_rfl le_rfl
  have hstep : find_last_players_step (fun _ => syntheticPage 25 MAX_RANK)
      25 1 [("m", MAX_RANK)] "m" = some (MAX_RANK, [("m", MAX_RANK)]) := by
    unfold find_last_players_step
    rw [show List.lookup "m" [("m", MAX_RANK)] = some MAX_RANK by
      simp [List.lookup]]
    dsimp only
    rw [if_pos rfl, hbs]
    rfl
  exact C7_checkpoint_monotone 25 1 MAX_RANK MAX_RANK [("m", MAX_RANK)] "m"
    MAX_RANK [("m", MAX_RANK)] (by norm_num) (by norm_num [MAX_RANK]) le_rfl
    (by simp [List.lookup]) hstep

/-- C8: whenever the fetch at the current midpoint returns a non-empty
page shorter than the page size, the `binary_search` loop stops at once —
even though `low ≤ high` still holds — returning that page's last entry,
and its event trace ends with that single fetch. -/
theorem C8_short_page_ends_search (fetch : Int → List Int) (psize : Nat)
    (low high : Int) (last : Option Int) (hlh : low ≤ high)
    (hne : fetch (pymid low high) ≠ [])
    (hshort : (fetch (pymid low high)).length < psize) :
    binary_search_loop fetch psize low high last
        = (fetch (pymid low high)).getLast? ∧
    binary_search_events fetch psize low high
        = [Event.fetch (pymid low high)] :=
  ⟨binary_search_loop_short_page fetch psize low high last hlh hne hshort,
    binary_search_events_short_page fetch psize low high hlh hne hshort⟩

/-- C8 witness: a single-row page at midpoint 5 of bracket `[0, 10]` ends
the search immediately with that row. -/
theorem C8_short_page_ends_search_witness :
    binary_search_loop (fun _ => [7]) 25 0 10 none = some 7 ∧
    binary_search_events (fun _ => [7]) 25 0 10 = [Event.fetch 5] := by
  have hp : pymid 0 10 = (5 : Int) := by decide
  have h := C8_short_page_ends_search (fun _ => [7]) 25 0 10 none
    (by norm_num) (by simp) (by simp)
  rw [hp] at h
  simpa using h

/-- C9 (amended): the checkpoint write is not atomic: the truncated
intermediate state is observable (the file holds neither mapping), and
only an uninterrupted save ends with exactly the new mapping. -/
theorem C9_save_not_atomic (old new : LastRanks) :
    none ∈ save_observable_states old new ∧
    (save_observable_states old new).getLast? = some (some new) := by
  constructor <;> simp [save_observable_states]

/-- C9 counterexample: during a save replacing the mapping `m ↦ 1` by
`m ↦ 2`, an observable file state is neither the old nor the new
mapping — a partial-write state is observable. -/
theorem C9_counterexample :
    ¬ ∀ s ∈ save_observable_states [("m", 1)] [("m", 2)],
        s = some [("m", 1)] ∨ s = some [("m", 2)] := by
  decide

/-- C10: checkpoint entries for metrics outside the configured list are
preserved by a completed run: the final mapping written to the file agrees
with the loaded one on every metric name not searched. -/
theorem C10_untracked_entries_preserved (fetch : String → Int → List Int)
    (psize fuel : Nat) (metrics : List String) (lr : LastRanks)
    (res : List Int) (lr' : LastRanks) (name : String)
    (h : find_last_players fetch psize fuel metrics lr = some (res, lr'))
    (hn : name ∉ metrics) :
    List.lookup name lr' = List.lookup name lr :=
  find_last_players_go_frame fetch psize fuel metrics lr res lr' name h hn

/-- C10 witness: a run over the single metric `m` starting from the
mapping `x ↦ 3` keeps the entry for `x` unchanged. -/
theorem C10_untracked_entries_preserved_witness :
    List.lookup "x" [("x", (3 : Int)), ("m", 10)]
      = List.lookup "x" [("x", (3 : Int))] := by
  have hbs : binary_search (syntheticPage 25 10) 25 0 MAX_RANK = some 10 :=
    binary_search_loop_synthetic 25 10 0 MAX_RANK none (by norm_num) le_rfl
      (by norm_num) (by norm_num [MAX_RANK])
  have hstep : find_last_players_step (fun _ => syntheticPage 25 10) 25 1
      [("x", 3)] "m" = some (10, [("x", 3), ("m", 10)]) := by
    unfold find_last_players_step
    rw [show List.lookup "m" [("x", (3 : Int))] = none by simp [List.lookup]]
    dsimp only
    rw [hbs]
    rfl
  have hrun : find_last_players (fun _ => syntheticPage 25 10) 25 1 ["m"]
      [("x", 3)] = some ([10], [("x", 3), ("m", 10)]) := by
    unfold find_last_players
    rw [find_last_players_go, hstep]
    dsimp only
    rw [find_last_players_go]
    rfl
  exact C10_untracked_entries_preserved (fun _ => syntheticPage 25 10) 25 1
    ["m"] [("x", 3)] [10] [("x", 3), ("m", 10)] "x" hrun (by simp)
